import Mathlib

/-!
# Verification of the Sitefinity documentation crawler (src/crawler.mjs)

This file gives a shallow embedding of the crawl-orchestration engine of
the crawler: the URL canonicalizer (`extractVersion`, `normalizeUrl`,
`getCanonicalUrl`), the markdown whitespace normalizer
(`normalizeMarkdownWhitespace`), the recursive visit procedure
(`SitefinityCrawler.crawlPage`, embedded as `crawlStep`), the cache loader
(`loadCachedProgress`), and the finalizer (`close`, embedded as
`closeSummary`).

Strings are modelled as `List Char`.  Side-effecting collaborators that
the spec declares out of scope (the Playwright page fetcher, the DOM
content extractor, the Turndown renderer, and the file system) are
modelled as oracles: an `Env` of pure functions giving the outcome of
each navigation attempt, probe, extraction and link discovery, and a
list of `CacheFile` records describing what the progress directory
contains.  All decision logic — guards, ordering of checks, state
updates, retry counting — is translated directly from the source.
-/

/-- URLs (and other strings) are modelled as lists of characters. -/
abbrev Url := List Char

/- ----------------------------------------------------------------- -/
/-! ## URL canonicalizer (crawler.mjs lines 791-820)

The source uses the regex `/\/documentation\/sitefinity-cms\/(\d+)\//`
(no `g` flag): the leftmost occurrence of the literal site root followed
by one or more ASCII digits and a slash.  Since the regex starts with a
literal and `\d+` is greedy with no fruitful backtracking (shrinking the
digit run can never make the following `\/` match), a match at a given
position exists iff the literal root is present there, followed by a
nonempty maximal digit run, followed by `/`. -/

/-- The fixed site-root path literal appearing in the version regex. -/
def siteRootChars : Url := "/documentation/sitefinity-cms/".data

/-- Try to match `\/documentation\/sitefinity-cms\/(\d+)\//` at the head
of `s`.  On success, returns the captured digit run and the characters
after the matched trailing slash. -/
def versionMatchAt (s : Url) : Option (Url × Url) :=
  if siteRootChars.isPrefixOf s then
    let t := s.drop siteRootChars.length
    let ds := t.takeWhile Char.isDigit
    match ds, t.dropWhile Char.isDigit with
    | [], _ => none
    | _ :: _, '/' :: rest => some (ds, rest)
    | _ :: _, _ => none
  else none

/-- Leftmost match of the version regex: returns
`(text before the match, captured digits, text after the match)`. -/
def findVersion : Url → Option (Url × Url × Url)
  | [] => none
  | c :: cs =>
    match versionMatchAt (c :: cs) with
    | some (ds, rest) => some ([], ds, rest)
    | none => (findVersion cs).map (fun p => (c :: p.1, p.2.1, p.2.2))

/-- `SitefinityCrawler.extractVersion` (line 791): the version number of
a Sitefinity documentation URL, or `none` when no version is present. -/
def extractVersion (url : Url) : Option Url :=
  (findVersion url).map (fun p => p.2.1)

/-- `SitefinityCrawler.normalizeUrl` (line 802): replace the first match
of `/documentation/sitefinity-cms/<digits>/` by
`/documentation/sitefinity-cms/`. -/
def normalizeUrl (url : Url) : Url :=
  match findVersion url with
  | some (pre, _, rest) => pre ++ siteRootChars ++ rest
  | none => url

/-- `SitefinityCrawler.getCanonicalUrl` (line 812). -/
def getCanonicalUrl (url : Url) : Url :=
  match extractVersion url with
  | some _ => normalizeUrl url
  | none => url

/- ----------------------------------------------------------------- -/
/-! ## The crawl scheduler (crawler.mjs lines 642-774)

`crawlPage` is async and recursive; its collaborators are modelled by an
environment of pure oracles:

* `probeOk c` — outcome of the canonical existence probe
  (`testPage.goto(canonicalUrl)` succeeding with `response.ok()`, lines
  671-695; `false` covers an error status, a timeout, or an exception);
* `gotoOk url n` — whether navigation attempt number `n` of the step-5
  fetch for `url` succeeds (line 730);
* `extractOk url` — whether content extraction and saving succeed after
  a successful load (lines 750-753; `false` means an exception reaches
  the outer catch at line 769);
* `links url` — documentation links discovered on the live page
  (line 756).

The crawler instance state (`visited`, `visitedCanonical`, `pageCount`,
`cachedPages`, `allMarkdownContent`, …) is threaded explicitly.  Three
ghost logs record observable events without influencing control flow:
`fetchLog` (one entry per step-5 fetch, appended exactly where line 709
increments `pageCount`), `records` (one entry per persisted CrawlRecord,
line 753), and `gotoTrace` (one entry per step-5 navigation attempt,
with its timeout in ms).  Recursion is bounded by explicit fuel: with
zero fuel a call returns its state unchanged. -/

/-- Oracles for the out-of-scope collaborators (fetcher, extractor). -/
structure Env where
  probeOk : Url → Bool
  gotoOk : Url → Nat → Bool
  extractOk : Url → Bool
  links : Url → List Url

/-- The mutable crawler instance state (constructor, lines 407-438),
plus the three ghost logs. -/
structure CrawlSt where
  visited : List Url
  visitedCanonical : List Url
  cachedPages : List Url
  allMarkdown : List Url
  records : List Url
  fetchLog : List Url
  gotoTrace : List (Url × Nat)
  pageCount : Nat
  cachedCount : Nat
  maxPages : Nat
  staleThreshold : Nat
deriving DecidableEq

/-- Fresh crawler state, as built by the constructor with the given
`maxPages` and `staleThreshold` options. -/
def mkCrawlSt (maxPages staleThreshold : Nat) : CrawlSt :=
  ⟨[], [], [], [], [], [], [], 0, 0, maxPages, staleThreshold⟩

/-- Lines 707-709: add `url` to `visited` and `canonical` to
`visitedCanonical`, increment `pageCount` — all before the fetch is
attempted.  Also appends the step-5 ghost log entry. -/
def markVisited (st : CrawlSt) (url canonical : Url) : CrawlSt :=
  { st with visited := url :: st.visited,
            visitedCanonical := canonical :: st.visitedCanonical,
            pageCount := st.pageCount + 1,
            fetchLog := st.fetchLog ++ [url] }

/-- Line 753 (`saveContent`) and line 397: persist the CrawlRecord and
collect the rendered document. -/
def recordPage (st : CrawlSt) (url : Url) : CrawlSt :=
  { st with records := st.records ++ [url],
            allMarkdown := st.allMarkdown ++ [url] }

/-- Line 724: attempt `n` of the step-5 fetch uses timeout
`10000 * n` milliseconds (10s, 20s, 30s). -/
def attemptTimeout (n : Nat) : Nat := 10000 * n

/-- Line 721: the retry bound of the step-5 fetch. -/
def maxRetries : Nat := 3

/-- The retry loop of lines 723-747: `rem` attempts remain, the next is
attempt number `attempt`.  Returns the attempt numbers actually tried in
order, and whether navigation eventually succeeded (a `false` models the
final rethrow at line 744 reaching the outer catch). -/
def retryLoop (g : Nat → Bool) : Nat → Nat → List Nat × Bool
  | 0, _ => ([], false)
  | rem + 1, attempt =>
    if g attempt then ([attempt], true)
    else
      let r := retryLoop g rem (attempt + 1)
      (attempt :: r.1, r.2)

/-- The whole step-5 fetch: up to `maxRetries` attempts starting at
attempt 1. -/
def fetchWithRetry (g : Nat → Bool) : List Nat × Bool :=
  retryLoop g maxRetries 1

/-- Append the navigation attempts of the step-5 fetch of `url` to the
ghost goto trace, each with its timeout. -/
def logAttempts (st : CrawlSt) (url : Url) (attempts : List Nat) : CrawlSt :=
  { st with gotoTrace :=
      st.gotoTrace ++ attempts.map (fun n => (url, attemptTimeout n)) }

/-- The pending work of the scheduler: `page url` is a `crawlPage(url)`
call (line 647); `fetch url` is its fall-through tail starting at the
cache check (line 699); `list urls` is a loop issuing `crawlPage` on
each URL with the budget re-checked before each one (lines 762-767 for
discovered links, lines 889-894 for the cache-derived queue). -/
inductive CrawlTask where
  | page : Url → CrawlTask
  | fetch : Url → CrawlTask
  | list : List Url → CrawlTask
deriving DecidableEq

/-- The visit procedure `SitefinityCrawler.crawlPage` (lines 647-774),
with recursion bounded by fuel (zero fuel returns the state unchanged).

* `page url`: line 648 guard (`visited` / page budget), then the
  version-suppression check (line 656), then the canonical-first probe
  (lines 662-696): on probe success recurse on the canonical URL and
  stop; on probe failure fall through to `fetch url`.  Unversioned URLs
  fall through directly.
* `fetch url`: cache short-circuit (lines 699-703), then mark
  visited/canonical/pageCount (lines 707-709), run the retry loop; on
  navigation success and extraction success, persist the record and
  recurse over the discovered links; any failure terminates the branch
  (outer catch, lines 769-773).
* `list urls`: issue `page` on each URL, breaking when the budget has
  been reached. -/
def crawlStep (env : Env) : Nat → CrawlSt → CrawlTask → CrawlSt
  | 0, st, _ => st
  | fuel + 1, st, CrawlTask.page url =>
    if url ∈ st.visited ∨ st.maxPages ≤ st.pageCount then st
    else
      match extractVersion url with
      | some _ =>
        if getCanonicalUrl url ∈ st.visitedCanonical then st
        else if env.probeOk (getCanonicalUrl url) then
          crawlStep env fuel st (CrawlTask.page (getCanonicalUrl url))
        else
          crawlStep env fuel st (CrawlTask.fetch url)
      | none => crawlStep env fuel st (CrawlTask.fetch url)
  | fuel + 1, st, CrawlTask.fetch url =>
    if url ∈ st.cachedPages then st
    else
      let st1 := logAttempts (markVisited st url (getCanonicalUrl url)) url
        (fetchWithRetry (env.gotoOk url)).1
      if (fetchWithRetry (env.gotoOk url)).2 then
        if env.extractOk url then
          crawlStep env fuel (recordPage st1 url) (CrawlTask.list (env.links url))
        else st1
      else st1
  | _ + 1, st, CrawlTask.list [] => st
  | fuel + 1, st, CrawlTask.list (l :: ls) =>
    if st.maxPages ≤ st.pageCount then st
    else crawlStep env fuel (crawlStep env fuel st (CrawlTask.page l)) (CrawlTask.list ls)

/-- The URL used to refute C2 as stated: its path has two decimal-digit
segments after the fixed site-root path. -/
def doubleVersionUrl : Url :=
  "https://www.progress.com/documentation/sitefinity-cms/152/33/page".data

/-- Precondition under which a pending task keeps the budget invariant:
a raw `fetch` tail is only ever entered from a `page` call whose guard
(line 648) has just ensured the budget is not yet exhausted. -/
def budgetPre (st : CrawlSt) : CrawlTask → Prop
  | CrawlTask.fetch _ => st.pageCount < st.maxPages
  | _ => st.pageCount ≤ st.maxPages

/-- Precondition under which a pending task keeps the fetch-log free of
duplicates: a raw `fetch` tail is only ever entered for a URL the guard
at line 648 has just found unvisited. -/
def unvisitedPre (st : CrawlSt) : CrawlTask → Prop
  | CrawlTask.fetch url => url ∉ st.visited
  | _ => True

/- =================================================================== -/
/-! # DEFINITIONS CONTINUE HERE -/
/- ----------------------------------------------------------------- -/
/-! ## Cache loader (crawler.mjs lines 444-530)

One `CacheFile` models one `*.json` progress file together with the
observations the loader makes about it: whether its `.html` and `.md`
companions exist (line 478), whether reading and `JSON.parse` succeed
(exceptions are caught at line 517), the parsed `crawledAt` timestamp in
ms (`new Date(...).getTime()`; `none` models an invalid date, whose
`NaN` age comparison is falsy and therefore stale), the record's `url`,
and the outbound documentation links `extractLinksFromHtml` yields from
its stored HTML (that pure regex scan is not itself under any claim, so
its result is part of the record). -/

structure CacheFile where
  url : Url
  hasHtml : Bool
  hasMd : Bool
  parseOk : Bool
  crawledAt : Option Int
  links : List Url
deriving DecidableEq

/-- Loop-carried state of the loader: the crawler state plus the
`urlsToCrawl` accumulator and the fresh/stale counters. -/
structure LoadAcc where
  st : CrawlSt
  urls : List Url
  freshCount : Nat
  staleCount : Nat
deriving DecidableEq

/-- Lines 488-490: `now - crawledAt < staleThresholdMs`.  An invalid
`crawledAt` date gives `NaN`, whose comparison is falsy (`none` here). -/
def isFreshAt (now thresholdMs : Int) (crawledAt : Option Int) : Bool :=
  match crawledAt with
  | none => false
  | some t => decide (now - t < thresholdMs)

/-- One iteration of the loader loop (lines 471-522): missing companion
files or a read/parse failure classify the record stale and skip it; a
fresh record is loaded into `cachedPages`, marked visited (original and
canonical URL), its rendered document appended, and its links added to
`urlsToCrawl`; otherwise the record is stale. -/
def processFile (now thresholdMs : Int) (acc : LoadAcc) (f : CacheFile) : LoadAcc :=
  if f.hasHtml && f.hasMd then
    if f.parseOk then
      if isFreshAt now thresholdMs f.crawledAt then
        { st := { acc.st with
            cachedPages := f.url :: acc.st.cachedPages,
            visited := f.url :: acc.st.visited,
            visitedCanonical := getCanonicalUrl f.url :: acc.st.visitedCanonical,
            allMarkdown := acc.st.allMarkdown ++ [f.url] },
          urls := acc.urls ++ f.links,
          freshCount := acc.freshCount + 1,
          staleCount := acc.staleCount }
      else { acc with staleCount := acc.staleCount + 1 }
    else { acc with staleCount := acc.staleCount + 1 }
  else { acc with staleCount := acc.staleCount + 1 }

/-- `SitefinityCrawler.loadCachedProgress` (lines 444-530).  Early
returns: no progress directory (line 447), no `*.json` files (line 455),
and the `staleThreshold === 0` short-circuit (line 466), all yielding an
empty candidate queue and an untouched state.  Otherwise the loop runs
over every record and `cachedCount` is set to the fresh count
(line 527). -/
def loadCachedProgress (dirExists : Bool) (files : List CacheFile)
    (now : Int) (st : CrawlSt) : List Url × CrawlSt :=
  if ¬dirExists then ([], st)
  else if files.isEmpty then ([], st)
  else if st.staleThreshold = 0 then ([], st)
  else
    let acc := files.foldl (processFile now ((st.staleThreshold : Int) * 1000))
      ⟨st, [], 0, 0⟩
    (acc.urls, { acc.st with cachedCount := acc.freshCount })

/- ----------------------------------------------------------------- -/
/-! ## Finalizer and whole runs (crawler.mjs lines 826-907) -/

/-- The `_summary.json` manifest written by `close` (lines 832-839). -/
structure Summary where
  totalPages : Nat
  cachedPages : Nat
  newlyFetchedPages : Nat
  crawledAt : Int
  baseUrl : Url
  pages : List Url
deriving DecidableEq

/-- The fixed crawl origin (line 408). -/
def crawlerBaseUrl : Url :=
  "https://www.progress.com/documentation/sitefinity-cms".data

/-- The manifest exactly as `close` builds it (lines 832-839):
`totalPages` is set to `this.pageCount`, the same value as
`newlyFetchedPages`. -/
def closeSummary (st : CrawlSt) (ts : Int) : Summary :=
  { totalPages := st.pageCount,
    cachedPages := st.cachedCount,
    newlyFetchedPages := st.pageCount,
    crawledAt := ts,
    baseUrl := crawlerBaseUrl,
    pages := st.visited }

/-- The `Total Pages` figure of the `llms-full.txt` header and of the
final console report (lines 847, 853-854, 867):
`this.pageCount + this.cachedCount`. -/
def llmsTotalPages (st : CrawlSt) : Nat := st.pageCount + st.cachedCount

/-- `SitefinityCrawler.run` (lines 882-907): initialize (which loads the
cache), crawl the cache-derived candidate queue with the budget
re-checked before each URL, always crawl the base URL, then `close`. -/
def runCrawler (env : Env) (fuel : Nat) (dirExists : Bool)
    (files : List CacheFile) (now ts : Int)
    (maxPages staleThreshold : Nat) : Summary × CrawlSt :=
  let p := loadCachedProgress dirExists files now (mkCrawlSt maxPages staleThreshold)
  let st2 := crawlStep env fuel p.2 (CrawlTask.list p.1)
  let st3 := crawlStep env fuel st2 (CrawlTask.page crawlerBaseUrl)
  (closeSummary st3 ts, st3)

/- ----------------------------------------------------------------- -/
/-! ## Concrete fixtures used by witness theorems -/

/-- An environment in which every probe, navigation attempt and
extraction succeeds and no page has outbound links. -/
def envAll : Env := ⟨fun _ => true, fun _ _ => true, fun _ => true, fun _ => []⟩

/-- An environment in which every step-5 navigation attempt fails. -/
def envNoGoto : Env := ⟨fun _ => true, fun _ _ => false, fun _ => true, fun _ => []⟩

/-- An environment in which every canonical probe fails. -/
def envProbeFail : Env := ⟨fun _ => false, fun _ _ => true, fun _ => true, fun _ => []⟩

/-- An environment in which navigation succeeds but extraction fails. -/
def envNoExtract : Env := ⟨fun _ => true, fun _ _ => true, fun _ => false, fun _ => []⟩

/-- A concrete versioned URL used in witnesses. -/
def witVersionedUrl : Url := "/documentation/sitefinity-cms/42/page".data

/-- A concrete cached record (fresh, complete, no outbound links) used
to exhibit the manifest total-page count. -/
def c8file : CacheFile :=
  ⟨"https://www.progress.com/documentation/sitefinity-cms/architecture".data,
    true, true, true, some 0, []⟩

/- ----------------------------------------------------------------- -/
/-! ## Markdown whitespace normalizer (crawler.mjs lines 297-307)

`normalizeMarkdownWhitespace` splits on `'\n'`, trims trailing
whitespace from each line (`String.prototype.trimEnd`), joins with
`'\n'`, replaces every maximal run of 3 or more newlines by exactly two
(the global regex `/\n{3,}/g`), and finally trims the whole document
(`String.prototype.trim`).  JS `trim`/`trimEnd` strip the WhiteSpace and
LineTerminator characters; `isJsWhitespace` lists the ones relevant to
text content (space, tab, LF, CR, VT, FF, NBSP, BOM — the remaining
Unicode space separators are omitted; no proof depends on the exact
membership beyond `'\n'` being whitespace). -/

/-- The whitespace characters stripped by JS `trim`/`trimEnd`. -/
def isJsWhitespace (c : Char) : Bool :=
  c == ' ' || c == '\t' || c == '\n' || c == '\r' || c == '\x0B' ||
  c == '\x0C' || c == ' ' || c == '﻿'

/-- `String.prototype.split('\n')` on a char list: at least one group,
an empty group for each boundary newline. -/
def splitNl : List Char → List (List Char)
  | [] => [[]]
  | c :: cs =>
    if c = '\n' then [] :: splitNl cs
    else
      match splitNl cs with
      | [] => [[c]]
      | g :: gs => (c :: g) :: gs

/-- `Array.prototype.join('\n')` on char-list groups. -/
def joinNl : List (List Char) → List Char
  | [] => []
  | [g] => g
  | g :: gs => g ++ '\n' :: joinNl gs

/-- `String.prototype.trimEnd`. -/
def trimEndList (l : List Char) : List Char :=
  (l.reverse.dropWhile isJsWhitespace).reverse

/-- The leading-whitespace half of `String.prototype.trim`. -/
def trimStartList (l : List Char) : List Char :=
  l.dropWhile isJsWhitespace

/-- `String.prototype.trim`. -/
def trimList (l : List Char) : List Char :=
  trimEndList (trimStartList l)

/-- What the regex replacement emits for a pending run of `n` newlines:
runs of 1 or 2 newlines are untouched, runs of 3 or more (the matches of
`/\n{3,}/g`, which greedily cover each maximal run) become exactly two
newlines. -/
def nlRun (n : Nat) : List Char := List.replicate (min n 2) '\n'

/-- `.replace(/\n{3,}/g, '\n\n')` as a left-to-right scan: `pending`
newlines have been read and not yet emitted. -/
def collapseNl : List Char → Nat → List Char
  | [], pending => nlRun pending
  | c :: cs, pending =>
    if c = '\n' then collapseNl cs (pending + 1)
    else nlRun pending ++ c :: collapseNl cs 0

/-- `normalizeMarkdownWhitespace` (lines 297-307). -/
def normalizeMarkdownWhitespace (s : List Char) : List Char :=
  trimList (collapseNl (joinNl ((splitNl s).map trimEndList)) 0)

/-- Scanner for a character pair `(whitespace other than '\n', '\n')`
or a final whitespace character other than `'\n'` — i.e. for a line with
trailing whitespace somewhere in the document. -/
def badEndChar (c : Char) : Bool := isJsWhitespace c && !(c == '\n')

/-- `noTrailWs l = true` iff no `'\n'`-delimited line of `l` ends in
whitespace. -/
def noTrailWs : List Char → Bool
  | [] => true
  | [c] => !badEndChar c
  | c :: d :: cs => !(badEndChar c && d == '\n') && noTrailWs (d :: cs)

/-- Do the first two characters exist and equal `'\n'`? -/
def twoNl : List Char → Bool
  | a :: b :: _ => a == '\n' && b == '\n'
  | _ => false

/-- `hasNl3 l = true` iff `l` contains three consecutive newlines. -/
def hasNl3 : List Char → Bool
  | [] => false
  | c :: cs => (c == '\n' && twoNl cs) || hasNl3 cs

/- DEFS-MARKER -/

/- =================================================================== -/
/-! # Theorems -/

theorem getCanonicalUrl_of_none {url : Url} (h : extractVersion url = none) :
    getCanonicalUrl url = url := by
  unfold getCanonicalUrl
  rw [h]

/- ----------------------------------------------------------------- -/
/-! ## Claim C2: idempotence of canonicalization -/

/-- C2 (counterexample).  `getCanonicalUrl` is NOT idempotent on a URL
whose path contains two decimal-digit segments directly after the fixed
site-root path: the regex replacement removes only the first digit
segment, so the canonical form of
`…/documentation/sitefinity-cms/152/33/page` is
`…/documentation/sitefinity-cms/33/page`, which still carries a version
token and canonicalizes further to
`…/documentation/sitefinity-cms/page`. -/
theorem C2_canonical_not_idempotent :
    getCanonicalUrl (getCanonicalUrl doubleVersionUrl) ≠
      getCanonicalUrl doubleVersionUrl := by
  decide

/-- C2 (amended).  Canonicalization is idempotent for every URL whose
canonical form carries no version token — in particular for every URL
with at most one decimal-digit segment after the fixed site-root path.
(URLs with consecutive digit segments after the site root are excluded:
one application strips only the first digit segment, as
`C2_canonical_not_idempotent` shows.) -/
theorem C2_canonical_idempotent_amended (u : Url)
    (h : extractVersion (getCanonicalUrl u) = none) :
    getCanonicalUrl (getCanonicalUrl u) = getCanonicalUrl u :=
  getCanonicalUrl_of_none h

/-- Witness for `C2_canonical_idempotent_amended` at a concrete
singly-versioned URL. -/
theorem C2_canonical_idempotent_amended_witness :
    extractVersion (getCanonicalUrl
      "https://www.progress.com/documentation/sitefinity-cms/152/page".data) = none ∧
    getCanonicalUrl (getCanonicalUrl
      "https://www.progress.com/documentation/sitefinity-cms/152/page".data) =
    getCanonicalUrl
      "https://www.progress.com/documentation/sitefinity-cms/152/page".data :=
  ⟨by decide, C2_canonical_idempotent_amended
    "https://www.progress.com/documentation/sitefinity-cms/152/page".data (by decide)⟩

/- ----------------------------------------------------------------- -/
/-! ## Basic invariants of the scheduler -/

theorem crawlStep_maxPages (env : Env) :
    ∀ fuel st t, (crawlStep env fuel st t).maxPages = st.maxPages := by
  intro fuel
  induction fuel with
  | zero => intro st t; rfl
  | succ fuel ih =>
    intro st t
    cases t with
    | page url =>
      simp only [crawlStep]
      split
      · rfl
      · split
        · split
          · rfl
          · split
            · exact ih ..
            · exact ih ..
        · exact ih ..
    | fetch url =>
      simp only [crawlStep]
      split
      · rfl
      · split
        · split
          · rw [ih]; rfl
          · rfl
        · rfl
    | list ls =>
      cases ls with
      | nil => rfl
      | cons l ls' =>
        simp only [crawlStep]
        split
        · rfl
        · rw [ih, ih]

theorem crawlStep_visited_mono (env : Env) (u : Url) :
    ∀ fuel st t, u ∈ st.visited → u ∈ (crawlStep env fuel st t).visited := by
  intro fuel
  induction fuel with
  | zero => intro st t h; exact h
  | succ fuel ih =>
    intro st t h
    cases t with
    | page url =>
      simp only [crawlStep]
      split
      · exact h
      · split
        · split
          · exact h
          · split
            · exact ih _ _ h
            · exact ih _ _ h
        · exact ih _ _ h
    | fetch url =>
      simp only [crawlStep]
      split
      · exact h
      · split
        · split
          · exact ih _ _ (List.mem_cons_of_mem _ h)
          · exact List.mem_cons_of_mem _ h
        · exact List.mem_cons_of_mem _ h
    | list ls =>
      cases ls with
      | nil => exact h
      | cons l ls' =>
        simp only [crawlStep]
        split
        · exact h
        · exact ih _ _ (ih _ _ h)

theorem crawlStep_visitedCanonical_mono (env : Env) (u : Url) :
    ∀ fuel st t, u ∈ st.visitedCanonical →
      u ∈ (crawlStep env fuel st t).visitedCanonical := by
  intro fuel
  induction fuel with
  | zero => intro st t h; exact h
  | succ fuel ih =>
    intro st t h
    cases t with
    | page url =>
      simp only [crawlStep]
      split
      · exact h
      · split
        · split
          · exact h
          · split
            · exact ih _ _ h
            · exact ih _ _ h
        · exact ih _ _ h
    | fetch url =>
      simp only [crawlStep]
      split
      · exact h
      · split
        · split
          · exact ih _ _ (List.mem_cons_of_mem _ h)
          · exact List.mem_cons_of_mem _ h
        · exact List.mem_cons_of_mem _ h
    | list ls =>
      cases ls with
      | nil => exact h
      | cons l ls' =>
        simp only [crawlStep]
        split
        · exact h
        · exact ih _ _ (ih _ _ h)

theorem crawlStep_fetchLog_mono (env : Env) (u : Url) :
    ∀ fuel st t, u ∈ st.fetchLog → u ∈ (crawlStep env fuel st t).fetchLog := by
  intro fuel
  induction fuel with
  | zero => intro st t h; exact h
  | succ fuel ih =>
    intro st t h
    cases t with
    | page url =>
      simp only [crawlStep]
      split
      · exact h
      · split
        · split
          · exact h
          · split
            · exact ih _ _ h
            · exact ih _ _ h
        · exact ih _ _ h
    | fetch url =>
      simp only [crawlStep]
      split
      · exact h
      · split
        · split
          · exact ih _ _ (List.mem_append_left _ h)
          · exact List.mem_append_left _ h
        · exact List.mem_append_left _ h
    | list ls =>
      cases ls with
      | nil => exact h
      | cons l ls' =>
        simp only [crawlStep]
        split
        · exact h
        · exact ih _ _ (ih _ _ h)

theorem crawlStep_records_mono (env : Env) (u : Url) :
    ∀ fuel st t, u ∈ st.records → u ∈ (crawlStep env fuel st t).records := by
  intro fuel
  induction fuel with
  | zero => intro st t h; exact h
  | succ fuel ih =>
    intro st t h
    cases t with
    | page url =>
      simp only [crawlStep]
      split
      · exact h
      · split
        · split
          · exact h
          · split
            · exact ih _ _ h
            · exact ih _ _ h
        · exact ih _ _ h
    | fetch url =>
      simp only [crawlStep]
      split
      · exact h
      · split
        · split
          · exact ih _ _ (List.mem_append_left _ h)
          · exact h
        · exact h
    | list ls =>
      cases ls with
      | nil => exact h
      | cons l ls' =>
        simp only [crawlStep]
        split
        · exact h
        · exact ih _ _ (ih _ _ h)

theorem crawlStep_budget (env : Env) :
    ∀ fuel st t, budgetPre st t →
      (crawlStep env fuel st t).pageCount ≤ st.maxPages := by
  intro fuel
  induction fuel with
  | zero =>
    intro st t h
    cases t with
    | page url => exact h
    | fetch url => exact Nat.le_of_lt h
    | list ls => exact h
  | succ fuel ih =>
    intro st t h
    cases t with
    | page url =>
      simp only [crawlStep]
      split
      · exact h
      · next hng =>
        have hlt : st.pageCount < st.maxPages := by
          rcases Nat.lt_or_ge st.pageCount st.maxPages with h1 | h1
          · exact h1
          · exact absurd (Or.inr h1) hng
        split
        · split
          · exact h
          · split
            · exact ih _ _ (Nat.le_of_lt hlt)
            · exact ih _ _ hlt
        · exact ih _ _ hlt
    | fetch url =>
      simp only [crawlStep]
      split
      · exact Nat.le_of_lt h
      · split
        · split
          · have := ih (recordPage (logAttempts (markVisited st url
              (getCanonicalUrl url)) url (fetchWithRetry (env.gotoOk url)).1) url)
              (CrawlTask.list (env.links url)) (Nat.succ_le_of_lt h)
            exact this
          · exact Nat.succ_le_of_lt h
        · exact Nat.succ_le_of_lt h
    | list ls =>
      cases ls with
      | nil => exact h
      | cons l ls' =>
        simp only [crawlStep]
        split
        · exact h
        · have h1 := ih st (CrawlTask.page l) h
          have h2 := ih (crawlStep env fuel st (CrawlTask.page l))
            (CrawlTask.list ls')
            (by simp only [budgetPre]; rw [crawlStep_maxPages]; exact h1)
          rw [crawlStep_maxPages] at h2
          exact h2

theorem crawlStep_account (env : Env) :
    ∀ fuel st t,
      (crawlStep env fuel st t).pageCount + st.fetchLog.length =
        st.pageCount + (crawlStep env fuel st t).fetchLog.length := by
  intro fuel
  induction fuel with
  | zero => intro st t; rfl
  | succ fuel ih =>
    intro st t
    cases t with
    | page url =>
      simp only [crawlStep]
      split
      · rfl
      · split
        · split
          · rfl
          · split
            · exact ih ..
            · exact ih ..
        · exact ih ..
    | fetch url =>
      simp only [crawlStep]
      split
      · rfl
      · split
        · split
          · have := ih (recordPage (logAttempts (markVisited st url
              (getCanonicalUrl url)) url (fetchWithRetry (env.gotoOk url)).1) url)
              (CrawlTask.list (env.links url))
            simp only [recordPage, logAttempts, markVisited,
              List.length_append, List.length_singleton] at this ⊢
            omega
          · simp only [logAttempts, markVisited, List.length_append,
              List.length_singleton]
            omega
        · simp only [logAttempts, markVisited, List.length_append,
            List.length_singleton]
          omega
    | list ls =>
      cases ls with
      | nil => rfl
      | cons l ls' =>
        simp only [crawlStep]
        split
        · rfl
        · have h1 := ih st (CrawlTask.page l)
          have h2 := ih (crawlStep env fuel st (CrawlTask.page l))
            (CrawlTask.list ls')
          omega

theorem crawlStep_fetchLog_nodup (env : Env) :
    ∀ fuel st t, (∀ u ∈ st.fetchLog, u ∈ st.visited) → st.fetchLog.Nodup →
      unvisitedPre st t →
      ((∀ u ∈ (crawlStep env fuel st t).fetchLog,
          u ∈ (crawlStep env fuel st t).visited) ∧
        (crawlStep env fuel st t).fetchLog.Nodup) := by
  intro fuel
  induction fuel with
  | zero => intro st t h1 h2 _; exact ⟨h1, h2⟩
  | succ fuel ih =>
    intro st t h1 h2 hp
    cases t with
    | page url =>
      simp only [crawlStep]
      split
      · exact ⟨h1, h2⟩
      · next hng =>
        have hnv : url ∉ st.visited := fun hv => hng (Or.inl hv)
        split
        · split
          · exact ⟨h1, h2⟩
          · split
            · exact ih _ _ h1 h2 trivial
            · exact ih _ _ h1 h2 hnv
        · exact ih _ _ h1 h2 hnv
    | fetch url =>
      simp only [crawlStep]
      split
      · exact ⟨h1, h2⟩
      · have hnlog : url ∉ st.fetchLog := fun hl => hp (h1 url hl)
        have h1' : ∀ u ∈ st.fetchLog ++ [url], u ∈ url :: st.visited := by
          intro u hu
          rcases List.mem_append.mp hu with hu | hu
          · exact List.mem_cons_of_mem _ (h1 u hu)
          · simp only [List.mem_singleton] at hu
            subst hu
            exact List.mem_cons_self ..
        have h2' : (st.fetchLog ++ [url]).Nodup := by
          rw [List.nodup_append]
          exact ⟨h2, List.nodup_singleton url, by
            intro a ha hb
            simp only [List.mem_singleton] at hb
            subst hb
            exact hnlog ha⟩
        split
        · split
          · exact ih _ _ h1' h2' trivial
          · exact ⟨h1', h2'⟩
        · exact ⟨h1', h2'⟩
    | list ls =>
      cases ls with
      | nil => exact ⟨h1, h2⟩
      | cons l ls' =>
        simp only [crawlStep]
        split
        · exact ⟨h1, h2⟩
        · have hstep := ih st (CrawlTask.page l) h1 h2 trivial
          exact ih _ _ hstep.1 hstep.2 trivial

/-- If the probe for `getCanonicalUrl V` always succeeds, the scheduler
never performs a step-5 fetch of the versioned URL `V` and never
persists a CrawlRecord for it, whatever task it is running — the `page`
branch for `V` always diverts to the canonical URL (or suppresses `V`)
before the fetch phase can be reached. -/
theorem crawlStep_no_fetch_of_probeOk (env : Env) (V : Url)
    (hv : extractVersion V ≠ none)
    (hp : env.probeOk (getCanonicalUrl V) = true) :
    ∀ fuel st t, t ≠ CrawlTask.fetch V →
      V ∉ st.fetchLog → V ∉ st.records →
      V ∉ (crawlStep env fuel st t).fetchLog ∧
        V ∉ (crawlStep env fuel st t).records := by
  intro fuel
  induction fuel with
  | zero => intro st t _ h1 h2; exact ⟨h1, h2⟩
  | succ fuel ih =>
    intro st t ht h1 h2
    cases t with
    | page url =>
      simp only [crawlStep]
      split
      · exact ⟨h1, h2⟩
      · split
        · split
          · exact ⟨h1, h2⟩
          · split
            · exact ih _ _ (by simp) h1 h2
            · next hpr =>
              refine ih _ _ ?_ h1 h2
              intro heq
              cases heq
              exact hpr hp
        · next hnone =>
          refine ih _ _ ?_ h1 h2
          intro heq
          cases heq
          exact hv hnone
    | fetch url =>
      have hne : url ≠ V := fun h => ht (by rw [h])
      simp only [crawlStep]
      split
      · exact ⟨h1, h2⟩
      · have h1' : V ∉ st.fetchLog ++ [url] := by
          intro hmem
          rcases List.mem_append.mp hmem with hm | hm
          · exact h1 hm
          · simp only [List.mem_singleton] at hm
            exact hne hm.symm
        have h2' : V ∉ st.records ++ [url] := by
          intro hmem
          rcases List.mem_append.mp hmem with hm | hm
          · exact h2 hm
          · simp only [List.mem_singleton] at hm
            exact hne hm.symm
        split
        · split
          · exact ih _ _ (by simp) h1' h2'
          · exact ⟨h1', h2⟩
        · exact ⟨h1', h2⟩
    | list ls =>
      cases ls with
      | nil => exact ⟨h1, h2⟩
      | cons l ls' =>
        simp only [crawlStep]
        split
        · exact ⟨h1, h2⟩
        · have hstep := ih st (CrawlTask.page l) (by simp) h1 h2
          exact ih _ _ (by simp) hstep.1 hstep.2

/- ----------------------------------------------------------------- -/
/-! ## Retry loop lemmas -/

theorem retryLoop_length (g : Nat → Bool) :
    ∀ rem a, (retryLoop g rem a).1.length ≤ rem := by
  intro rem
  induction rem with
  | zero => intro a; exact Nat.le_refl 0
  | succ rem ih =>
    intro a
    simp only [retryLoop]
    split
    · simp
    · simp only [List.length_cons]
      exact Nat.succ_le_succ (ih (a + 1))

theorem retryLoop_head (g : Nat → Bool) :
    ∀ rem a, rem ≠ 0 → (retryLoop g rem a).1.head? = some a := by
  intro rem a h
  cases rem with
  | zero => exact absurd rfl h
  | succ rem =>
    simp only [retryLoop]
    split
    · rfl
    · rfl

theorem retryLoop_chain (g : Nat → Bool) :
    ∀ rem a, List.Chain'
      (fun x y => attemptTimeout x < attemptTimeout y) (retryLoop g rem a).1 := by
  intro rem
  induction rem with
  | zero => intro a; exact List.chain'_nil
  | succ rem ih =>
    intro a
    simp only [retryLoop]
    split
    · exact List.chain'_singleton _
    · rw [List.chain'_cons']
      refine ⟨?_, ih (a + 1)⟩
      intro y hy
      cases rem with
      | zero => simp [retryLoop] at hy
      | succ rem' =>
        rw [retryLoop_head g _ _ (Nat.succ_ne_zero rem')] at hy
        simp only [Option.mem_def, Option.some.injEq] at hy
        subst hy
        simp only [attemptTimeout]
        omega

/- ----------------------------------------------------------------- -/
/-! ## Unfolding lemmas for single visit decisions -/

theorem crawlPage_to_fetch (env : Env) (fuel : Nat) (st : CrawlSt) (url : Url)
    (h1 : url ∉ st.visited) (h2 : st.pageCount < st.maxPages)
    (h3 : extractVersion url = none) :
    crawlStep env (fuel + 1) st (CrawlTask.page url) =
      crawlStep env fuel st (CrawlTask.fetch url) := by
  have hg : ¬(url ∈ st.visited ∨ st.maxPages ≤ st.pageCount) := by
    intro h
    rcases h with h | h
    · exact h1 h
    · omega
  simp only [crawlStep, h3, if_neg hg]

theorem crawlPage_probe_success (env : Env) (fuel : Nat) (st : CrawlSt) (url : Url)
    (h1 : url ∉ st.visited) (h2 : st.pageCount < st.maxPages)
    (h3 : extractVersion url ≠ none)
    (h4 : getCanonicalUrl url ∉ st.visitedCanonical)
    (h5 : env.probeOk (getCanonicalUrl url) = true) :
    crawlStep env (fuel + 1) st (CrawlTask.page url) =
      crawlStep env fuel st (CrawlTask.page (getCanonicalUrl url)) := by
  have hg : ¬(url ∈ st.visited ∨ st.maxPages ≤ st.pageCount) := by
    intro h
    rcases h with h | h
    · exact h1 h
    · omega
  obtain ⟨v, hv⟩ := Option.ne_none_iff_exists'.mp h3
  simp only [crawlStep, hv, if_neg hg, if_neg h4, if_pos h5]

theorem crawlPage_probe_fail (env : Env) (fuel : Nat) (st : CrawlSt) (url : Url)
    (h1 : url ∉ st.visited) (h2 : st.pageCount < st.maxPages)
    (h3 : extractVersion url ≠ none)
    (h4 : getCanonicalUrl url ∉ st.visitedCanonical)
    (h5 : env.probeOk (getCanonicalUrl url) = false) :
    crawlStep env (fuel + 1) st (CrawlTask.page url) =
      crawlStep env fuel st (CrawlTask.fetch url) := by
  have hg : ¬(url ∈ st.visited ∨ st.maxPages ≤ st.pageCount) := by
    intro h
    rcases h with h | h
    · exact h1 h
    · omega
  obtain ⟨v, hv⟩ := Option.ne_none_iff_exists'.mp h3
  have h5' : ¬env.probeOk (getCanonicalUrl url) = true := by
    rw [h5]; exact Bool.false_ne_true
  simp only [crawlStep, hv, if_neg hg, if_neg h4, if_neg h5']

theorem crawlPage_suppressed (env : Env) (fuel : Nat) (st : CrawlSt) (url : Url)
    (h3 : extractVersion url ≠ none)
    (h4 : getCanonicalUrl url ∈ st.visitedCanonical) :
    crawlStep env fuel st (CrawlTask.page url) = st := by
  cases fuel with
  | zero => rfl
  | succ fuel =>
    obtain ⟨v, hv⟩ := Option.ne_none_iff_exists'.mp h3
    simp only [crawlStep, hv, if_pos h4]
    split
    · rfl
    · rfl

theorem crawlFetch_unfold (env : Env) (fuel : Nat) (st : CrawlSt) (url : Url)
    (hc : url ∉ st.cachedPages) :
    crawlStep env (fuel + 1) st (CrawlTask.fetch url) =
      (if (fetchWithRetry (env.gotoOk url)).2 then
        if env.extractOk url then
          crawlStep env fuel
            (recordPage (logAttempts (markVisited st url (getCanonicalUrl url))
              url (fetchWithRetry (env.gotoOk url)).1) url)
            (CrawlTask.list (env.links url))
        else
          logAttempts (markVisited st url (getCanonicalUrl url)) url
            (fetchWithRetry (env.gotoOk url)).1
      else
        logAttempts (markVisited st url (getCanonicalUrl url)) url
          (fetchWithRetry (env.gotoOk url)).1) := by
  simp only [crawlStep, if_neg hc]

/- ----------------------------------------------------------------- -/
/-! ## Loader preservation lemmas -/

theorem processFile_preserves (now th : Int) (acc : LoadAcc) (f : CacheFile) :
    (processFile now th acc f).st.pageCount = acc.st.pageCount ∧
    (processFile now th acc f).st.maxPages = acc.st.maxPages ∧
    (processFile now th acc f).st.fetchLog = acc.st.fetchLog := by
  unfold processFile
  repeat' split
  all_goals exact ⟨rfl, rfl, rfl⟩

theorem loadFold_preserves (now th : Int) :
    ∀ (files : List CacheFile) (acc : LoadAcc),
      (files.foldl (processFile now th) acc).st.pageCount = acc.st.pageCount ∧
      (files.foldl (processFile now th) acc).st.maxPages = acc.st.maxPages ∧
      (files.foldl (processFile now th) acc).st.fetchLog = acc.st.fetchLog := by
  intro files
  induction files with
  | nil => intro acc; exact ⟨rfl, rfl, rfl⟩
  | cons f fs ih =>
    intro acc
    simp only [List.foldl_cons]
    obtain ⟨h1, h2, h3⟩ := ih (processFile now th acc f)
    obtain ⟨g1, g2, g3⟩ := processFile_preserves now th acc f
    exact ⟨h1.trans g1, h2.trans g2, h3.trans g3⟩

theorem loadCachedProgress_preserves (d : Bool) (files : List CacheFile)
    (now : Int) (st : CrawlSt) :
    (loadCachedProgress d files now st).2.pageCount = st.pageCount ∧
    (loadCachedProgress d files now st).2.maxPages = st.maxPages ∧
    (loadCachedProgress d files now st).2.fetchLog = st.fetchLog := by
  unfold loadCachedProgress
  split
  · exact ⟨rfl, rfl, rfl⟩
  · split
    · exact ⟨rfl, rfl, rfl⟩
    · split
      · exact ⟨rfl, rfl, rfl⟩
      · obtain ⟨h1, h2, h3⟩ := loadFold_preserves now ((st.staleThreshold : Int) * 1000)
          files ⟨st, [], 0, 0⟩
        exact ⟨h1, h2, h3⟩

/- ----------------------------------------------------------------- -/
/-! ## Claim C1: the page budget -/

/-- C1.  For every reachable state with `pageCount ≤ maxPages`, every
visit decision keeps `pageCount ≤ maxPages`; `pageCount` counts exactly
the step-5 fetches (the ghost `fetchLog` gains one entry exactly where
`pageCount` is incremented, so the increase of `pageCount` equals the
number of step-5 fetches performed — cache hits, version suppressions
and canonical probes leave both unchanged); and a whole run never ends
with `pageCount` above `maxPages`. -/
theorem C1_page_budget :
    (∀ env fuel st url, st.pageCount ≤ st.maxPages →
      (crawlStep env fuel st (CrawlTask.page url)).pageCount ≤ st.maxPages) ∧
    (∀ env fuel st t,
      (crawlStep env fuel st t).pageCount + st.fetchLog.length =
        st.pageCount + (crawlStep env fuel st t).fetchLog.length) ∧
    (∀ env fuel dirExists files now ts maxPages staleThreshold,
      (runCrawler env fuel dirExists files now ts
        maxPages staleThreshold).2.pageCount ≤ maxPages) := by
  refine ⟨?_, crawlStep_account, ?_⟩
  · intro env fuel st url h
    exact crawlStep_budget env fuel st (CrawlTask.page url) h
  · intro env fuel d files now ts mp th
    unfold runCrawler
    obtain ⟨hpc, hmax, -⟩ :=
      loadCachedProgress_preserves d files now (mkCrawlSt mp th)
    set st1 := (loadCachedProgress d files now (mkCrawlSt mp th)).2 with hst1
    have h1 : st1.pageCount ≤ st1.maxPages := by
      rw [hpc, hmax]
      exact Nat.zero_le mp
    have h2 := crawlStep_budget env fuel st1
      (CrawlTask.list (loadCachedProgress d files now (mkCrawlSt mp th)).1) h1
    set st2 := crawlStep env fuel st1
      (CrawlTask.list (loadCachedProgress d files now (mkCrawlSt mp th)).1) with hst2
    have hmax2 : st2.maxPages = st1.maxPages := crawlStep_maxPages ..
    have h3 : st2.pageCount ≤ st2.maxPages := by rw [hmax2]; exact h2
    have h4 := crawlStep_budget env fuel st2 (CrawlTask.page crawlerBaseUrl) h3
    rw [hmax2, hmax] at h4
    exact h4

/-- Witness for `C1_page_budget` at a concrete state and environment. -/
theorem C1_page_budget_witness :
    (crawlStep envAll 3 (mkCrawlSt 2 0) (CrawlTask.page ['a'])).pageCount ≤
      (mkCrawlSt 2 0).maxPages :=
  C1_page_budget.1 envAll 3 (mkCrawlSt 2 0) ['a'] (by decide)

/- ----------------------------------------------------------------- -/
/-! ## Claim C3: successful canonical probe diverts to the canonical URL -/

/-- C3.  For a versioned URL `V` whose canonical form is not yet in
`visitedCanonical`, if the canonical probe succeeds the visit of `V` is
literally the recursive visit of the canonical URL (and then
terminates); and as long as the probe for `V`'s canonical form
succeeds, no task the scheduler ever runs performs a step-5 fetch of `V`
or persists a CrawlRecord for `V`. -/
theorem C3_probe_success_diverts :
    (∀ env fuel st url, url ∉ st.visited → st.pageCount < st.maxPages →
      extractVersion url ≠ none →
      getCanonicalUrl url ∉ st.visitedCanonical →
      env.probeOk (getCanonicalUrl url) = true →
      crawlStep env (fuel + 1) st (CrawlTask.page url) =
        crawlStep env fuel st (CrawlTask.page (getCanonicalUrl url))) ∧
    (∀ env V fuel st t, extractVersion V ≠ none →
      env.probeOk (getCanonicalUrl V) = true →
      t ≠ CrawlTask.fetch V → V ∉ st.fetchLog → V ∉ st.records →
      V ∉ (crawlStep env fuel st t).fetchLog ∧
        V ∉ (crawlStep env fuel st t).records) := by
  constructor
  · intro env fuel st url h1 h2 h3 h4 h5
    exact crawlPage_probe_success env fuel st url h1 h2 h3 h4 h5
  · intro env V fuel st t hv hp ht h1 h2
    exact crawlStep_no_fetch_of_probeOk env V hv hp fuel st t ht h1 h2

/-- Witness for `C3_probe_success_diverts` at a concrete versioned URL
with an always-succeeding probe. -/
theorem C3_probe_success_diverts_witness :
    (crawlStep envAll 4 (mkCrawlSt 5 0) (CrawlTask.page witVersionedUrl) =
      crawlStep envAll 3 (mkCrawlSt 5 0)
        (CrawlTask.page (getCanonicalUrl witVersionedUrl))) ∧
    (witVersionedUrl ∉
      (crawlStep envAll 4 (mkCrawlSt 5 0)
        (CrawlTask.page witVersionedUrl)).fetchLog ∧
      witVersionedUrl ∉
        (crawlStep envAll 4 (mkCrawlSt 5 0)
          (CrawlTask.page witVersionedUrl)).records) :=
  ⟨C3_probe_success_diverts.1 envAll 3 (mkCrawlSt 5 0) witVersionedUrl
      (by decide) (by decide) (by decide) (by decide) rfl,
    C3_probe_success_diverts.2 envAll witVersionedUrl 4 (mkCrawlSt 5 0)
      (CrawlTask.page witVersionedUrl)
      (by decide) rfl (by decide) (by decide) (by decide)⟩

/- ----------------------------------------------------------------- -/
/-! ## Claim C4: failed canonical probe fetches the versioned URL -/

/-- C4.  When the canonical probe for a versioned URL fails, the
versioned URL itself is step-5 fetched and persisted under its original
(versioned) form, and its canonical form enters `visitedCanonical`;
`visitedCanonical` only ever grows; and any versioned URL whose
canonical form is in `visitedCanonical` is dequeued with no effect at
all (the state is returned unchanged). -/
theorem C4_probe_fail_fetches_versioned :
    (∀ env fuel st url, url ∉ st.visited → st.pageCount < st.maxPages →
      extractVersion url ≠ none →
      getCanonicalUrl url ∉ st.visitedCanonical →
      env.probeOk (getCanonicalUrl url) = false →
      url ∉ st.cachedPages →
      (fetchWithRetry (env.gotoOk url)).2 = true →
      env.extractOk url = true →
      (url ∈ (crawlStep env (fuel + 2) st (CrawlTask.page url)).visited ∧
        getCanonicalUrl url ∈
          (crawlStep env (fuel + 2) st (CrawlTask.page url)).visitedCanonical ∧
        url ∈ (crawlStep env (fuel + 2) st (CrawlTask.page url)).fetchLog ∧
        url ∈ (crawlStep env (fuel + 2) st (CrawlTask.page url)).records)) ∧
    (∀ env fuel st t u, u ∈ st.visitedCanonical →
      u ∈ (crawlStep env fuel st t).visitedCanonical) ∧
    (∀ env fuel st url, extractVersion url ≠ none →
      getCanonicalUrl url ∈ st.visitedCanonical →
      crawlStep env fuel st (CrawlTask.page url) = st) := by
  refine ⟨?_, ?_, ?_⟩
  · intro env fuel st url h1 h2 h3 h4 h5 h6 h7 h8
    rw [crawlPage_probe_fail env (fuel + 1) st url h1 h2 h3 h4 h5,
      crawlFetch_unfold env fuel st url h6, if_pos h7, if_pos h8]
    refine ⟨?_, ?_, ?_, ?_⟩
    · exact crawlStep_visited_mono env url fuel _ _
        (List.mem_cons_self ..)
    · exact crawlStep_visitedCanonical_mono env (getCanonicalUrl url) fuel _ _
        (List.mem_cons_self ..)
    · exact crawlStep_fetchLog_mono env url fuel _ _
        (List.mem_append_right _ (List.mem_singleton_self url))
    · exact crawlStep_records_mono env url fuel _ _
        (List.mem_append_right _ (List.mem_singleton_self url))
  · intro env fuel st t u h
    exact crawlStep_visitedCanonical_mono env u fuel st t h
  · intro env fuel st url h3 h4
    exact crawlPage_suppressed env fuel st url h3 h4

/-- Witness for `C4_probe_fail_fetches_versioned` with a failing probe
and a successful fetch at a concrete versioned URL. -/
theorem C4_probe_fail_fetches_versioned_witness :
    (witVersionedUrl ∈
      (crawlStep envProbeFail 3 (mkCrawlSt 5 0)
        (CrawlTask.page witVersionedUrl)).visited ∧
      getCanonicalUrl witVersionedUrl ∈
        (crawlStep envProbeFail 3 (mkCrawlSt 5 0)
          (CrawlTask.page witVersionedUrl)).visitedCanonical ∧
      witVersionedUrl ∈
        (crawlStep envProbeFail 3 (mkCrawlSt 5 0)
          (CrawlTask.page witVersionedUrl)).fetchLog ∧
      witVersionedUrl ∈
        (crawlStep envProbeFail 3 (mkCrawlSt 5 0)
          (CrawlTask.page witVersionedUrl)).records) ∧
    crawlStep envProbeFail 7
      { mkCrawlSt 5 0 with
          visitedCanonical := [getCanonicalUrl witVersionedUrl] }
      (CrawlTask.page witVersionedUrl) =
      { mkCrawlSt 5 0 with
          visitedCanonical := [getCanonicalUrl witVersionedUrl] } :=
  ⟨C4_probe_fail_fetches_versioned.1 envProbeFail 1 (mkCrawlSt 5 0)
      witVersionedUrl (by decide) (by decide) (by decide) (by decide) rfl
      (by decide) (by decide) rfl,
    C4_probe_fail_fetches_versioned.2.2 envProbeFail 7
      { mkCrawlSt 5 0 with
          visitedCanonical := [getCanonicalUrl witVersionedUrl] }
      witVersionedUrl (by decide) (by decide)⟩

/- ----------------------------------------------------------------- -/
/-! ## Claim C5: staleThreshold zero disables the cache -/

/-- C5.  With `staleThreshold = 0` the loader short-circuits before
classifying any record: it returns an empty candidate queue and the
state completely unchanged (no cache entry, no visited/canonical
marking, no output accumulation, `cachedCount` untouched); and with an
empty in-memory cache every dequeued unversioned URL that passes the
guard is step-5 fetched (it lands in the fetch log). -/
theorem C5_zero_threshold_short_circuit :
    (∀ dirExists files now st, st.staleThreshold = 0 →
      loadCachedProgress dirExists files now st = ([], st)) ∧
    (∀ env fuel st url, st.cachedPages = [] → url ∉ st.visited →
      st.pageCount < st.maxPages → extractVersion url = none →
      url ∈ (crawlStep env (fuel + 2) st (CrawlTask.page url)).fetchLog) := by
  constructor
  · intro d files now st h
    unfold loadCachedProgress
    split
    · rfl
    · split
      · rfl
      · simp [h]
  · intro env fuel st url hc h1 h2 h3
    rw [crawlPage_to_fetch env (fuel + 1) st url h1 h2 h3,
      crawlFetch_unfold env fuel st url (by rw [hc]; exact List.not_mem_nil url)]
    have hmem : url ∈
        (logAttempts (markVisited st url (getCanonicalUrl url)) url
          (fetchWithRetry (env.gotoOk url)).1).fetchLog :=
      List.mem_append_right _ (List.mem_singleton_self url)
    split
    · split
      · exact crawlStep_fetchLog_mono env url fuel _ _ hmem
      · exact hmem
    · exact hmem

/-- Witness for `C5_zero_threshold_short_circuit`: a loader call with a
nonempty record list and threshold `0`, and a fetch of a concrete URL
with an empty cache. -/
theorem C5_zero_threshold_short_circuit_witness :
    loadCachedProgress true
      [⟨['a'], true, true, true, some 0, []⟩] 5 (mkCrawlSt 5 0) =
      ([], mkCrawlSt 5 0) ∧
    ['a'] ∈ (crawlStep envAll 4 (mkCrawlSt 5 0)
      (CrawlTask.page ['a'])).fetchLog :=
  ⟨C5_zero_threshold_short_circuit.1 true
      [⟨['a'], true, true, true, some 0, []⟩] 5 (mkCrawlSt 5 0) rfl,
    C5_zero_threshold_short_circuit.2 envAll 2 (mkCrawlSt 5 0) ['a']
      rfl (by decide) (by decide) (by decide)⟩

/- ----------------------------------------------------------------- -/
/-! ## Claim C6: mark-before-fetch and at-most-one fetch per URL -/

/-- C6.  In step 5 the URL is added to `visited`, its canonical form to
`visitedCanonical`, and `pageCount` is incremented before the first
navigation attempt: even when every attempt fails, the resulting state
is exactly the marked state (`markVisited`) plus the attempt trace, and
nothing else.  Consequently, starting from any state whose fetch log is
duplicate-free and contained in `visited` (as at run start, where both
are empty or cache-rebuilt), any visit leaves every URL with at most one
step-5 fetch in the log. -/
theorem C6_mark_before_fetch :
    (∀ env fuel st url, url ∉ st.visited → st.pageCount < st.maxPages →
      extractVersion url = none → url ∉ st.cachedPages →
      (fetchWithRetry (env.gotoOk url)).2 = false →
      crawlStep env (fuel + 2) st (CrawlTask.page url) =
        logAttempts (markVisited st url (getCanonicalUrl url)) url
          (fetchWithRetry (env.gotoOk url)).1) ∧
    (∀ env fuel st url, (∀ u ∈ st.fetchLog, u ∈ st.visited) →
      st.fetchLog.Nodup →
      (crawlStep env fuel st (CrawlTask.page url)).fetchLog.Nodup ∧
        ∀ u, @List.count Url instBEqOfDecidableEq u
          (crawlStep env fuel st (CrawlTask.page url)).fetchLog ≤ 1) := by
  constructor
  · intro env fuel st url h1 h2 h3 h4 h5
    rw [crawlPage_to_fetch env (fuel + 1) st url h1 h2 h3,
      crawlFetch_unfold env fuel st url h4,
      if_neg (by rw [h5]; exact Bool.false_ne_true)]
  · intro env fuel st url hsub hnd
    have h := crawlStep_fetchLog_nodup env fuel st (CrawlTask.page url)
      hsub hnd trivial
    exact ⟨h.2, fun u => List.nodup_iff_count_le_one.mp h.2 u⟩

/-- Witness for `C6_mark_before_fetch`: a URL whose three navigation
attempts all fail is still marked visited with its budget slot consumed,
and a fully successful crawl never fetches a URL twice. -/
theorem C6_mark_before_fetch_witness :
    (crawlStep envNoGoto 4 (mkCrawlSt 5 0) (CrawlTask.page ['b']) =
      logAttempts (markVisited (mkCrawlSt 5 0) ['b'] (getCanonicalUrl ['b']))
        ['b'] (fetchWithRetry (envNoGoto.gotoOk ['b'])).1) ∧
    @List.count Url instBEqOfDecidableEq ['b']
      (crawlStep envAll 4 (mkCrawlSt 5 0) (CrawlTask.page ['b'])).fetchLog ≤ 1 :=
  ⟨C6_mark_before_fetch.1 envNoGoto 2 (mkCrawlSt 5 0) ['b']
      (by decide) (by decide) (by decide) (by decide) (by decide),
    (C6_mark_before_fetch.2 envAll 4 (mkCrawlSt 5 0) ['b']
      (by intro u hu; exact absurd hu (List.not_mem_nil u))
      List.nodup_nil).2 ['b']⟩

/- ----------------------------------------------------------------- -/
/-! ## Claim C7: retry policy of the step-5 fetch -/

/-- C7.  The step-5 fetch makes at most 3 navigation attempts; attempt
`n` uses timeout `attemptTimeout n = 10000·n` ms, strictly increasing
along the attempts actually made; and when navigation has succeeded but
extraction fails, the branch terminates with exactly the marked state
and the already-made attempt trace — no further attempt, no record, no
recursion, and no error escapes (`crawlStep` returns a state). -/
theorem C7_retry_policy :
    (∀ g, (fetchWithRetry g).1.length ≤ 3) ∧
    (∀ g, List.Chain' (fun a b => attemptTimeout a < attemptTimeout b)
      (fetchWithRetry g).1) ∧
    (∀ env fuel st url, url ∉ st.cachedPages →
      (fetchWithRetry (env.gotoOk url)).2 = true →
      env.extractOk url = false →
      crawlStep env (fuel + 1) st (CrawlTask.fetch url) =
        logAttempts (markVisited st url (getCanonicalUrl url)) url
          (fetchWithRetry (env.gotoOk url)).1) := by
  refine ⟨?_, ?_, ?_⟩
  · intro g
    exact retryLoop_length g maxRetries 1
  · intro g
    exact retryLoop_chain g maxRetries 1
  · intro env fuel st url h1 h2 h3
    rw [crawlFetch_unfold env fuel st url h1, if_pos h2,
      if_neg (by rw [h3]; exact Bool.false_ne_true)]

/-- Witness for `C7_retry_policy`: the all-failing fetch makes exactly
the three attempts, and a concrete extraction failure terminates the
branch with only the attempt trace. -/
theorem C7_retry_policy_witness :
    (fetchWithRetry (fun _ => false)).1.length ≤ 3 ∧
    List.Chain' (fun a b => attemptTimeout a < attemptTimeout b)
      (fetchWithRetry (fun _ => false)).1 ∧
    crawlStep envNoExtract 2 (mkCrawlSt 5 0) (CrawlTask.fetch ['c']) =
      logAttempts (markVisited (mkCrawlSt 5 0) ['c'] (getCanonicalUrl ['c']))
        ['c'] (fetchWithRetry (envNoExtract.gotoOk ['c'])).1 :=
  ⟨C7_retry_policy.1 (fun _ => false),
    C7_retry_policy.2.1 (fun _ => false),
    C7_retry_policy.2.2 envNoExtract 1 (mkCrawlSt 5 0) ['c']
      (by decide) rfl rfl⟩

/- ----------------------------------------------------------------- -/
/-! ## Claim C9: incomplete or unparsable cache records are dropped -/

/-- C9.  A persisted record missing its HTML or Markdown companion, or
whose files fail to read/parse, is classified stale and dropped with no
other effect, whatever its `crawledAt` timestamp: the loader state is
returned unchanged except for the stale counter, and no error is raised
(`processFile` is total). -/
theorem C9_incomplete_record_dropped :
    ∀ now thMs acc f,
      f.hasHtml = false ∨ f.hasMd = false ∨ f.parseOk = false →
      processFile now thMs acc f =
        { acc with staleCount := acc.staleCount + 1 } := by
  intro now thMs acc f h
  unfold processFile
  rcases h with h | h | h
  · simp [h]
  · simp [h]
  · split
    · simp [h]
    · rfl

/-- Witness for `C9_incomplete_record_dropped`: a record with a fresh
timestamp but a missing HTML companion contributes only a stale count. -/
theorem C9_incomplete_record_dropped_witness :
    processFile 0 1000 ⟨mkCrawlSt 5 86400, [], 0, 0⟩
      ⟨['a'], false, true, true, some 0, []⟩ =
      { st := mkCrawlSt 5 86400, urls := [], freshCount := 0,
        staleCount := 1 } :=
  C9_incomplete_record_dropped 0 1000 ⟨mkCrawlSt 5 86400, [], 0, 0⟩
    ⟨['a'], false, true, true, some 0, []⟩ (Or.inl rfl)

/- ----------------------------------------------------------------- -/
/-! ## Claim C8: the manifest totals -/

/-- C8 (code bug).  A run over one fresh cached record plus the freshly
fetched base URL ends with `cachedCount = 1` and `pageCount = 1`, yet
the written manifest reports `totalPages = 1` — `close` (line 833) sets
`totalPages: this.pageCount`, identical to `newlyFetchedPages`, instead
of the sum `pageCount + cachedCount` that the same function computes and
uses for the `llms-full.txt` header and the final console report (lines
847, 853-854, 867), and that the claim states.  The other manifest
fields (cached count, fresh count, timestamp, origin, visited list) are
as claimed. -/
theorem C8_manifest_total_mismatch :
    (runCrawler envAll 5 true [c8file] 1000 999 5 86400).1.totalPages = 1 ∧
    (runCrawler envAll 5 true [c8file] 1000 999 5 86400).1.cachedPages = 1 ∧
    (runCrawler envAll 5 true [c8file] 1000 999 5 86400).1.newlyFetchedPages = 1 ∧
    (runCrawler envAll 5 true [c8file] 1000 999 5 86400).1.totalPages ≠
      (runCrawler envAll 5 true [c8file] 1000 999 5 86400).1.cachedPages +
      (runCrawler envAll 5 true [c8file] 1000 999 5 86400).1.newlyFetchedPages ∧
    llmsTotalPages (runCrawler envAll 5 true [c8file] 1000 999 5 86400).2 = 2 ∧
    (runCrawler envAll 5 true [c8file] 1000 999 5 86400).1.crawledAt = 999 ∧
    (runCrawler envAll 5 true [c8file] 1000 999 5 86400).1.baseUrl =
      crawlerBaseUrl ∧
    (runCrawler envAll 5 true [c8file] 1000 999 5 86400).1.pages =
      [crawlerBaseUrl, c8file.url] := by
  refine ⟨?_, ?_, ?_, ?_, ?_, ?_, ?_, ?_⟩ <;> decide

/- ----------------------------------------------------------------- -/
/-! ## Claim C10: lemmas about split/join and trimming -/

theorem splitNl_ne_nil : ∀ s, splitNl s ≠ [] := by
  intro s
  cases s with
  | nil => simp [splitNl]
  | cons c cs =>
    simp only [splitNl]
    split
    · simp
    · split
      · simp
      · simp

theorem joinNl_cons_cons (c : Char) (g : List Char) (gs : List (List Char)) :
    joinNl ((c :: g) :: gs) = c :: joinNl (g :: gs) := by
  cases gs with
  | nil => rfl
  | cons h t => rfl

theorem joinNl_splitNl : ∀ s, joinNl (splitNl s) = s := by
  intro s
  induction s with
  | nil => rfl
  | cons c cs ih =>
    simp only [splitNl]
    split
    · next hc =>
      subst hc
      obtain ⟨g, gs, hgs⟩ := List.exists_cons_of_ne_nil (splitNl_ne_nil cs)
      rw [hgs]
      show '\n' :: joinNl (g :: gs) = '\n' :: cs
      rw [← hgs, ih]
    · next hc =>
      cases hsp : splitNl cs with
      | nil => exact absurd hsp (splitNl_ne_nil cs)
      | cons g gs =>
        rw [joinNl_cons_cons]
        rw [hsp] at ih
        rw [ih]

theorem not_nl_mem_splitNl : ∀ s, ∀ g ∈ splitNl s, '\n' ∉ g := by
  intro s
  induction s with
  | nil =>
    intro g hg
    simp [splitNl] at hg
    subst hg
    exact List.not_mem_nil _
  | cons c cs ih =>
    intro g hg
    simp only [splitNl] at hg
    split at hg
    · rcases List.mem_cons.mp hg with h | h
      · subst h; exact List.not_mem_nil _
      · exact ih g h
    · next hc =>
      cases hsp : splitNl cs with
      | nil => exact absurd hsp (splitNl_ne_nil cs)
      | cons g' gs' =>
        rw [hsp] at hg
        rcases List.mem_cons.mp hg with h | h
        · subst h
          intro hmem
          rcases List.mem_cons.mp hmem with h | h
          · exact hc h.symm
          · exact ih g' (by rw [hsp]; exact List.mem_cons_self ..) h
        · exact ih g (by rw [hsp]; exact List.mem_cons_of_mem _ h)

theorem map_eq_self_of_mem {α : Type} {f : α → α} :
    ∀ {l : List α}, (∀ x ∈ l, f x = x) → l.map f = l := by
  intro l
  induction l with
  | nil => intro _; rfl
  | cons a l ih =>
    intro h
    simp only [List.map_cons]
    rw [h a (List.mem_cons_self ..), ih (fun x hx => h x (List.mem_cons_of_mem _ hx))]

theorem dropWhile_cons_false {α : Type} {p : α → Bool} :
    ∀ (l : List α) c t, l.dropWhile p = c :: t → p c = false := by
  intro l
  induction l with
  | nil => intro c t h; simp [List.dropWhile] at h
  | cons a l ih =>
    intro c t h
    rw [List.dropWhile_cons] at h
    split at h
    · exact ih c t h
    · next ha =>
      cases h
      exact Bool.not_eq_true _ ▸ Bool.of_not_eq_true ha

theorem dropWhile_idem {α : Type} {p : α → Bool} (l : List α) :
    (l.dropWhile p).dropWhile p = l.dropWhile p := by
  cases h : l.dropWhile p with
  | nil => rfl
  | cons c t =>
    rw [List.dropWhile_cons, dropWhile_cons_false l c t h]
    simp

theorem trimEndList_idem (l : List Char) :
    trimEndList (trimEndList l) = trimEndList l := by
  unfold trimEndList
  rw [List.reverse_reverse, dropWhile_idem]

/-- Every char list splits as its trimmed-end core plus a whitespace
tail. -/
theorem trimEndList_decomp (l : List Char) :
    ∃ w, l = trimEndList l ++ w ∧ ∀ c ∈ w, isJsWhitespace c = true := by
  refine ⟨(l.reverse.takeWhile isJsWhitespace).reverse, ?_, ?_⟩
  · unfold trimEndList
    rw [← List.reverse_append, List.takeWhile_append_dropWhile, List.reverse_reverse]
  · intro c hc
    rw [List.mem_reverse] at hc
    exact List.mem_takeWhile_imp hc

/-- The trimmed-end core ends in a non-whitespace character (if at
all). -/
theorem trimEndList_last_not_ws (l : List Char) :
    ∀ c t, trimEndList l = t ++ [c] → isJsWhitespace c = false := by
  intro c t h
  unfold trimEndList at h
  have h' : l.reverse.dropWhile isJsWhitespace = c :: t.reverse := by
    have := congrArg List.reverse h
    rwa [List.reverse_reverse, List.reverse_append, List.reverse_singleton] at this
  exact dropWhile_cons_false _ _ _ h'

theorem trimEndList_snoc_not_ws {c : Char} (t : List Char)
    (h : isJsWhitespace c = false) : trimEndList (t ++ [c]) = t ++ [c] := by
  unfold trimEndList
  rw [List.reverse_append, List.reverse_singleton]
  show ((c :: t.reverse).dropWhile isJsWhitespace).reverse = t ++ [c]
  rw [List.dropWhile_cons, h]
  simp

/-- `trimEndList` fixes exactly the lists that are empty or end in a
non-whitespace character. -/
theorem trimEndList_eq_self_of_no_tail (l : List Char)
    (h : ∀ c t, l = t ++ [c] → isJsWhitespace c = false) :
    trimEndList l = l := by
  cases hl : l.reverse with
  | nil =>
    have : l = [] := by
      have := congrArg List.reverse hl
      rwa [List.reverse_reverse] at this
    rw [this]; rfl
  | cons c t =>
    have hl' : l = t.reverse ++ [c] := by
      have := congrArg List.reverse hl
      rw [List.reverse_reverse] at this
      rw [this, List.reverse_cons]
    exact hl' ▸ trimEndList_snoc_not_ws t.reverse (h c t.reverse hl')

/- ----------------------------------------------------------------- -/
/-! ## Claim C10: lemmas about the trailing-whitespace scanner -/

theorem badEndChar_nl : badEndChar '\n' = false := by decide

theorem noTrailWs_nl_cons (y : List Char) :
    noTrailWs ('\n' :: y) = noTrailWs y := by
  cases y with
  | nil => decide
  | cons d ys => simp [noTrailWs, badEndChar_nl]

theorem noTrailWs_tail {c : Char} {y : List Char}
    (h : noTrailWs (c :: y) = true) : noTrailWs y = true := by
  cases y with
  | nil => rfl
  | cons d ys =>
    simp only [noTrailWs, Bool.and_eq_true] at h
    exact h.2

theorem noTrailWs_cons_not_bad {c : Char} {y : List Char}
    (hc : badEndChar c = false) (h : noTrailWs y = true) :
    noTrailWs (c :: y) = true := by
  cases y with
  | nil => simp [noTrailWs, hc]
  | cons d ys => simp [noTrailWs, hc, h]

theorem noTrailWs_cons_not_nl {c d : Char} {ys : List Char}
    (hd : (d == '\n') = false) (h : noTrailWs (d :: ys) = true) :
    noTrailWs (c :: d :: ys) = true := by
  simp [noTrailWs, hd, h]

theorem noTrailWs_dropLast_nl : ∀ y, noTrailWs (y ++ ['\n']) = true →
    noTrailWs y = true := by
  intro y
  induction y with
  | nil => intro _; rfl
  | cons c ys ih =>
    intro h
    cases ys with
    | nil =>
      simp only [List.cons_append, List.nil_append, noTrailWs,
        Bool.and_eq_true] at h
      simp only [noTrailWs]
      have := h.1
      simp only [Bool.not_eq_eq_eq_not, Bool.not_true, Bool.and_eq_false_imp] at this ⊢
      by_cases hb : badEndChar c = true
      · have h2 := this hb
        simp at h2
      · exact Bool.of_not_eq_true hb
    | cons d zs =>
      simp only [List.cons_append, noTrailWs, Bool.and_eq_true] at h
      have h2 := ih (by
        have := h.2
        simpa using this)
      simp only [noTrailWs, Bool.and_eq_true]
      constructor
      · exact h.1
      · exact h2

theorem noTrailWs_snoc_bad : ∀ (y : List Char) (c : Char),
    badEndChar c = true → noTrailWs (y ++ [c]) = false := by
  intro y
  induction y with
  | nil => intro c hc; simp [noTrailWs, hc]
  | cons a ys ih =>
    intro c hc
    cases ys with
    | nil => simp [noTrailWs, hc]
    | cons d zs =>
      have h2 := ih c hc
      simp only [List.cons_append] at h2 ⊢
      simp only [noTrailWs, h2, Bool.and_false]

theorem noTrailWs_trimEnd_rev : ∀ r : List Char,
    noTrailWs r.reverse = true →
    noTrailWs ((r.dropWhile isJsWhitespace).reverse) = true := by
  intro r
  induction r with
  | nil => intro h; exact h
  | cons x r' ih =>
    intro h
    rw [List.dropWhile_cons]
    split
    · next hx =>
      apply ih
      rw [List.reverse_cons] at h
      by_cases hxn : x = '\n'
      · subst hxn
        exact noTrailWs_dropLast_nl _ h
      · exfalso
        have hb : badEndChar x = true := by
          have : (x == '\n') = false := by
            simp [hxn]
          simp [badEndChar, hx, this]
        rw [noTrailWs_snoc_bad r'.reverse x hb] at h
        exact Bool.false_ne_true h
    · exact h

theorem noTrailWs_trimEndList (l : List Char) (h : noTrailWs l = true) :
    noTrailWs (trimEndList l) = true := by
  unfold trimEndList
  exact noTrailWs_trimEnd_rev l.reverse (by rwa [List.reverse_reverse])

theorem noTrailWs_dropWhile (p : Char → Bool) : ∀ l,
    noTrailWs l = true → noTrailWs (l.dropWhile p) = true := by
  intro l
  induction l with
  | nil => intro h; exact h
  | cons c cs ih =>
    intro h
    rw [List.dropWhile_cons]
    split
    · exact ih (noTrailWs_tail h)
    · exact h

theorem noTrailWs_repl_nl_append : ∀ k (x : List Char),
    noTrailWs (List.replicate k '\n' ++ x) = noTrailWs x := by
  intro k
  induction k with
  | zero => intro x; rfl
  | succ k ih =>
    intro x
    rw [List.replicate_succ, List.cons_append, noTrailWs_nl_cons, ih]

theorem noTrailWs_collapseNl : ∀ l p, noTrailWs l = true →
    noTrailWs (collapseNl l p) = true := by
  intro l
  induction l with
  | nil =>
    intro p _
    show noTrailWs (nlRun p) = true
    have h1 := noTrailWs_repl_nl_append (min p 2) []
    rw [List.append_nil] at h1
    unfold nlRun
    rw [h1]
    rfl
  | cons c cs ih =>
    intro p h
    simp only [collapseNl]
    split
    · next hc =>
      subst hc
      rw [noTrailWs_nl_cons] at h
      exact ih (p + 1) h
    · next hc =>
      unfold nlRun
      rw [noTrailWs_repl_nl_append]
      cases cs with
      | nil =>
        show noTrailWs (c :: nlRun 0) = true
        exact h
      | cons d cs' =>
        by_cases hd : d = '\n'
        · subst hd
          have hbad : badEndChar c = false := by
            simp only [noTrailWs, Bool.and_eq_true] at h
            have := h.1
            simp only [Bool.not_eq_eq_eq_not, Bool.not_true,
              Bool.and_eq_false_imp] at this
            by_cases hb : badEndChar c = true
            · have := this hb
              simp at this
            · exact Bool.of_not_eq_true hb
          exact noTrailWs_cons_not_bad hbad (ih 0 (noTrailWs_tail h))
        · have hco : collapseNl (d :: cs') 0 = d :: collapseNl cs' 0 := by
            simp [collapseNl, hd, nlRun]
          rw [hco]
          have hrest : noTrailWs (d :: collapseNl cs' 0) = true := by
            rw [← hco]
            exact ih 0 (noTrailWs_tail h)
          exact noTrailWs_cons_not_nl (by simp [hd]) hrest

/-- Property of a line that `trimEndList` fixes: it is empty or ends in
a non-whitespace character. -/
def endOkP (g : List Char) : Prop :=
  ∀ c t, g = t ++ [c] → isJsWhitespace c = false

theorem endOkP_nil : endOkP [] := by
  intro c t h
  exact absurd h.symm (List.append_ne_nil_of_right_ne_nil t (by simp))

theorem endOkP_singleton {c : Char} (h : isJsWhitespace c = false) :
    endOkP [c] := by
  intro x t hxt
  cases t with
  | nil =>
    simp only [List.nil_append, List.cons.injEq] at hxt
    rw [← hxt.1]
    exact h
  | cons a t' =>
    simp only [List.cons_append, List.cons.injEq] at hxt
    exact absurd hxt.2.symm (List.append_ne_nil_of_right_ne_nil t' (by simp))
  
theorem endOkP_cons {c : Char} {g : List Char} (hg : g ≠ [])
    (h : endOkP g) : endOkP (c :: g) := by
  intro x t hxt
  cases t with
  | nil =>
    simp only [List.nil_append, List.cons.injEq] at hxt
    exact absurd hxt.2 hg
  | cons a t' =>
    simp only [List.cons_append, List.cons.injEq] at hxt
    exact h x t' hxt.2

theorem endOkP_of_trimmed {g : List Char} (h : trimEndList g = g) :
    endOkP g := by
  intro c t hct
  exact trimEndList_last_not_ws g c t (by rw [h, hct])

theorem trimmed_of_endOkP {g : List Char} (h : endOkP g) :
    trimEndList g = g :=
  trimEndList_eq_self_of_no_tail g (fun c t hct => h c t hct)

theorem endOkP_tail {c : Char} {g : List Char} (h : endOkP (c :: g)) :
    endOkP g := by
  intro x t hxt
  exact h x (c :: t) (by rw [hxt]; rfl)

theorem endOkP_head_not_ws {c : Char} (h : endOkP [c]) :
    isJsWhitespace c = false :=
  h c [] rfl

/-- A document made of an `'\n'`-free, end-trimmed line followed by
either nothing or a newline-started rest has no trailing-whitespace
line in the line part. -/
theorem noTrailWs_line : ∀ g : List Char, '\n' ∉ g → endOkP g →
    ∀ x : List Char,
      (x = [] ∨ ∃ x', x = '\n' :: x' ∧ noTrailWs x = true) →
      noTrailWs (g ++ x) = true := by
  intro g
  induction g with
  | nil =>
    intro _ _ x hx
    rcases hx with rfl | ⟨x', rfl, hx⟩
    · rfl
    · exact hx
  | cons c g' ih =>
    intro hnl hok x hx
    have hcnl : c ≠ '\n' := fun h => hnl (h ▸ List.mem_cons_self ..)
    cases g' with
    | nil =>
      have hcw : isJsWhitespace c = false := endOkP_head_not_ws hok
      have hbad : badEndChar c = false := by simp [badEndChar, hcw]
      rcases hx with rfl | ⟨x', rfl, hx⟩
      · simp [noTrailWs, hbad]
      · show noTrailWs (c :: '\n' :: x') = true
        exact noTrailWs_cons_not_bad hbad hx
    | cons d g'' =>
      have hd : (d == '\n') = false := by
        simp only [beq_eq_false_iff_ne, ne_eq]
        intro hdn
        exact hnl (hdn ▸ List.mem_cons_of_mem _ (List.mem_cons_self ..))
      have htail := ih (fun hm => hnl (List.mem_cons_of_mem _ hm))
        (endOkP_tail hok) x hx
      show noTrailWs (c :: d :: (g'' ++ x)) = true
      exact noTrailWs_cons_not_nl hd htail

theorem noTrailWs_joinNl : ∀ gs : List (List Char),
    (∀ g ∈ gs, '\n' ∉ g ∧ endOkP g) → noTrailWs (joinNl gs) = true := by
  intro gs
  induction gs with
  | nil => intro _; rfl
  | cons g gs' ih =>
    intro h
    obtain ⟨hg1, hg2⟩ := h g (List.mem_cons_self ..)
    cases gs' with
    | nil =>
      show noTrailWs (joinNl [g]) = true
      have := noTrailWs_line g hg1 hg2 [] (Or.inl rfl)
      rwa [List.append_nil] at this
    | cons g2 gs'' =>
      show noTrailWs (g ++ '\n' :: joinNl (g2 :: gs'')) = true
      refine noTrailWs_line g hg1 hg2 _ (Or.inr ⟨joinNl (g2 :: gs''), rfl, ?_⟩)
      rw [noTrailWs_nl_cons]
      exact ih (fun g' hg' => h g' (List.mem_cons_of_mem _ hg'))

theorem splitNl_head_nl {d : Char} {cs' : List Char}
    {gs : List (List Char)} (h : splitNl (d :: cs') = [] :: gs) :
    d = '\n' := by
  by_cases hd : d = '\n'
  · exact hd
  · exfalso
    simp only [splitNl, if_neg hd] at h
    cases hsp : splitNl cs' with
    | nil => exact splitNl_ne_nil cs' hsp
    | cons g' gs' =>
      rw [hsp] at h
      simp at h

theorem splitNl_endOk : ∀ l, noTrailWs l = true →
    ∀ g ∈ splitNl l, endOkP g := by
  intro l
  induction l with
  | nil =>
    intro _ g hg
    simp only [splitNl, List.mem_singleton] at hg
    subst hg
    exact endOkP_nil
  | cons c cs ih =>
    intro hnt g hg
    simp only [splitNl] at hg
    split at hg
    · next hc =>
      subst hc
      rw [noTrailWs_nl_cons] at hnt
      rcases List.mem_cons.mp hg with h | h
      · subst h; exact endOkP_nil
      · exact ih hnt g h
    · next hc =>
      cases hsp : splitNl cs with
      | nil => exact absurd hsp (splitNl_ne_nil cs)
      | cons g0 gs =>
        rw [hsp] at hg
        rcases List.mem_cons.mp hg with h | h
        · subst h
          have hcb : (c == '\n') = false := by simp [hc]
          cases g0 with
          | nil =>
            apply endOkP_singleton
            cases cs with
            | nil =>
              simp only [noTrailWs, badEndChar, hcb, Bool.and_true,
                Bool.not_eq_eq_eq_not, Bool.not_false] at hnt
              simpa using hnt
            | cons d cs' =>
              have hd := splitNl_head_nl hsp
              subst hd
              simp only [noTrailWs, Bool.and_eq_true] at hnt
              have h1 := hnt.1
              simp only [beq_self_eq_true, Bool.and_true,
                Bool.not_eq_eq_eq_not, Bool.not_true] at h1
              simp only [badEndChar, hcb, Bool.and_true] at h1
              simpa using h1
          | cons e g0' =>
            apply endOkP_cons (by simp)
            exact ih (noTrailWs_tail hnt) (e :: g0')
              (by rw [hsp]; exact List.mem_cons_self ..)
        · exact ih (noTrailWs_tail hnt) g (by rw [hsp]; exact List.mem_cons_of_mem _ h)

/- ----------------------------------------------------------------- -/
/-! ## Claim C10: lemmas about the triple-newline scanner -/

theorem twoNl_append {l : List Char} (y : List Char) (h : twoNl l = true) :
    twoNl (l ++ y) = true := by
  match l with
  | a :: b :: t => simpa [twoNl] using h
  | [] => simp [twoNl] at h
  | [a] => simp [twoNl] at h

theorem twoNl_cons_false {c : Char} {B : List Char}
    (hc : (c == '\n') = false) : twoNl (c :: B) = false := by
  cases B with
  | nil => rfl
  | cons d t => simp [twoNl, hc]

theorem hasNl3_cons_of_tail {a : Char} {x : List Char}
    (h : hasNl3 x = true) : hasNl3 (a :: x) = true := by
  simp [hasNl3, h]

theorem hasNl3_tail_of_false {c : Char} {cs : List Char}
    (h : hasNl3 (c :: cs) = false) : hasNl3 cs = false := by
  simp only [hasNl3, Bool.or_eq_false_iff] at h
  exact h.2

theorem hasNl3_append_left : ∀ (A B : List Char),
    hasNl3 A = true → hasNl3 (A ++ B) = true := by
  intro A
  induction A with
  | nil => intro B h; simp [hasNl3] at h
  | cons c cs ih =>
    intro B h
    simp only [hasNl3, Bool.or_eq_true, Bool.and_eq_true] at h ⊢
    rcases h with ⟨h1, h2⟩ | h
    · exact Or.inl ⟨h1, twoNl_append B h2⟩
    · exact Or.inr (ih B h)

theorem hasNl3_front_of_append_false (A B : List Char)
    (h : hasNl3 (A ++ B) = false) : hasNl3 A = false := by
  cases hA : hasNl3 A with
  | false => rfl
  | true => rw [hasNl3_append_left A B hA] at h; exact absurd h (by simp)

theorem hasNl3_back_of_append_false : ∀ (A B : List Char),
    hasNl3 (A ++ B) = false → hasNl3 B = false := by
  intro A
  induction A with
  | nil => intro B h; exact h
  | cons c cs ih =>
    intro B h
    exact ih B (hasNl3_tail_of_false h)

theorem hasNl3_dropWhile (p : Char → Bool) : ∀ l,
    hasNl3 l = false → hasNl3 (l.dropWhile p) = false := by
  intro l
  induction l with
  | nil => intro h; exact h
  | cons c cs ih =>
    intro h
    rw [List.dropWhile_cons]
    split
    · exact ih (hasNl3_tail_of_false h)
    · exact h

theorem hasNl3_trimEndList (l : List Char) (h : hasNl3 l = false) :
    hasNl3 (trimEndList l) = false := by
  obtain ⟨w, hw, -⟩ := trimEndList_decomp l
  rw [hw] at h
  exact hasNl3_front_of_append_false _ w h

theorem hasNl3_len_le_two : ∀ l : List Char, l.length ≤ 2 →
    hasNl3 l = false := by
  intro l h
  match l with
  | [] => rfl
  | [a] => simp [hasNl3, twoNl]
  | [a, b] => simp [hasNl3, twoNl]
  | a :: b :: c :: t => simp at h

theorem hasNl3_nl_cons (x : List Char) :
    hasNl3 ('\n' :: x) = (twoNl x || hasNl3 x) := by
  simp [hasNl3]

theorem hasNl3_not_nl_cons {c : Char} {B : List Char}
    (hc : (c == '\n') = false) (hB : hasNl3 B = false) :
    hasNl3 (c :: B) = false := by
  simp [hasNl3, hc, hB]

theorem hasNl3_nlRun_cons (p : Nat) (c : Char) (B : List Char)
    (hc : (c == '\n') = false) (hB : hasNl3 B = false) :
    hasNl3 (nlRun p ++ c :: B) = false := by
  have hcB : hasNl3 (c :: B) = false := hasNl3_not_nl_cons hc hB
  have htwo : twoNl (c :: B) = false := twoNl_cons_false hc
  have hm : min p 2 = 0 ∨ min p 2 = 1 ∨ min p 2 = 2 := by omega
  unfold nlRun
  rcases hm with hm | hm | hm <;> rw [hm]
  · simpa using hcB
  · show hasNl3 ('\n' :: c :: B) = false
    rw [hasNl3_nl_cons, htwo, hcB]
    rfl
  · show hasNl3 ('\n' :: '\n' :: c :: B) = false
    rw [hasNl3_nl_cons, hasNl3_nl_cons, htwo, hcB]
    have : twoNl ('\n' :: c :: B) = false := by simp [twoNl, hc]
    rw [this]
    rfl

theorem hasNl3_collapseNl : ∀ l p, hasNl3 (collapseNl l p) = false := by
  intro l
  induction l with
  | nil =>
    intro p
    show hasNl3 (nlRun p) = false
    apply hasNl3_len_le_two
    unfold nlRun
    simp only [List.length_replicate]
    omega
  | cons c cs ih =>
    intro p
    simp only [collapseNl]
    split
    · exact ih (p + 1)
    · next hc =>
      exact hasNl3_nlRun_cons p c _ (by simp [hc]) (ih 0)

theorem hasNl3_repl3 (p : Nat) (x : List Char) (hp : 3 ≤ p) :
    hasNl3 (List.replicate p '\n' ++ x) = true := by
  obtain ⟨q, rfl⟩ : ∃ q, p = q + 3 := ⟨p - 3, by omega⟩
  show hasNl3 (List.replicate (q + 3) '\n' ++ x) = true
  rw [List.replicate_succ, List.replicate_succ, List.replicate_succ]
  simp [hasNl3, twoNl]

theorem collapseNl_eq_self : ∀ (l : List Char) (p : Nat),
    hasNl3 (List.replicate p '\n' ++ l) = false →
    collapseNl l p = List.replicate p '\n' ++ l := by
  intro l
  induction l with
  | nil =>
    intro p h
    rw [List.append_nil] at h
    have hp : p ≤ 2 := by
      by_contra hgt
      have := hasNl3_repl3 p [] (by omega)
      rw [List.append_nil] at this
      rw [this] at h
      exact absurd h (by simp)
    show nlRun p = _
    unfold nlRun
    rw [Nat.min_eq_left hp, List.append_nil]
  | cons c cs ih =>
    intro p h
    simp only [collapseNl]
    split
    · next hc =>
      subst hc
      have hrw : List.replicate p '\n' ++ '\n' :: cs =
          List.replicate (p + 1) '\n' ++ cs := by
        rw [List.replicate_succ']
        simp
      rw [hrw] at h
      rw [ih (p + 1) h, ← hrw]
    · next hc =>
      have hp : p ≤ 2 := by
        by_contra hgt
        rw [hasNl3_repl3 p _ (by omega)] at h
        exact absurd h (by simp)
      have hcs : hasNl3 cs = false := by
        have h1 := hasNl3_back_of_append_false _ _ h
        exact hasNl3_tail_of_false h1
      rw [ih 0 (by simpa using hcs)]
      unfold nlRun
      rw [Nat.min_eq_left hp]
      rfl

/- ----------------------------------------------------------------- -/
/-! ## Claim C10: the newline-run scanner agrees with the run property -/

theorem twoNl_iff (x : List Char) :
    twoNl x = true ↔ ∃ t, x = '\n' :: '\n' :: t := by
  match x with
  | [] => simp [twoNl]
  | [a] => simp [twoNl]
  | a :: b :: t =>
    constructor
    · intro h
      simp only [twoNl, Bool.and_eq_true, beq_iff_eq] at h
      exact ⟨t, by rw [h.1, h.2]⟩
    · rintro ⟨t', ht⟩
      rw [List.cons.injEq, List.cons.injEq] at ht
      obtain ⟨h1, h2, -⟩ := ht
      simp [twoNl, h1, h2]

theorem hasNl3_iff_nl3_infix : ∀ l : List Char,
    hasNl3 l = true ↔ ['\n', '\n', '\n'] <:+: l := by
  intro l
  induction l with
  | nil =>
    simp only [hasNl3]
    constructor
    · intro h; exact absurd h (by simp)
    · rintro ⟨s, t, hst⟩
      simp at hst
  | cons c cs ih =>
    constructor
    · intro h
      simp only [hasNl3, Bool.or_eq_true, Bool.and_eq_true] at h
      rcases h with ⟨h1, h2⟩ | h
      · obtain ⟨t, rfl⟩ := (twoNl_iff cs).mp h2
        have hc : c = '\n' := by simpa using h1
        subst hc
        exact ⟨[], t, rfl⟩
      · exact List.infix_cons (ih.mp h)
    · rintro ⟨s, t, hst⟩
      cases s with
      | nil =>
        simp only [List.nil_append, List.cons_append, List.cons.injEq] at hst
        obtain ⟨h1, h2⟩ := hst
        subst h1
        rw [← h2]
        simp [hasNl3, twoNl]
      | cons a s' =>
        simp only [List.cons_append, List.cons.injEq] at hst
        exact hasNl3_cons_of_tail (ih.mpr ⟨s', t, hst.2⟩)

/- ----------------------------------------------------------------- -/
/-! ## Claim C10: trimming interplay -/

theorem trimStartList_idem (l : List Char) :
    trimStartList (trimStartList l) = trimStartList l :=
  dropWhile_idem l

theorem head_not_ws_of_fixed (c : Char) (x' : List Char)
    (h : List.dropWhile isJsWhitespace (c :: x') = c :: x') :
    isJsWhitespace c = false := by
  rw [List.dropWhile_cons] at h
  split at h
  · exfalso
    have hlen := congrArg List.length h
    have hle := (List.dropWhile_suffix (l := x') isJsWhitespace).length_le
    simp only [List.length_cons] at hlen
    omega
  · next h' => exact Bool.of_not_eq_true h'

theorem trimStart_fixed_trimEnd (X : List Char)
    (h : trimStartList X = X) :
    trimStartList (trimEndList X) = trimEndList X := by
  obtain ⟨w, hw, -⟩ := trimEndList_decomp X
  cases hY : trimEndList X with
  | nil => rfl
  | cons c t =>
    rw [hY] at hw
    unfold trimStartList at h ⊢
    rw [hw, List.cons_append] at h
    have hcw : isJsWhitespace c = false := head_not_ws_of_fixed c (t ++ w) h
    rw [List.dropWhile_cons]
    simp [hcw]

/- ----------------------------------------------------------------- -/
/-! ## Claim C10: assembly -/

/-- Structural shape of every normalized document: no line with
trailing whitespace (as scanned by `noTrailWs`), no triple newline, and
both trims are no-ops. -/
theorem normalize_shape (s : List Char) :
    noTrailWs (normalizeMarkdownWhitespace s) = true ∧
    hasNl3 (normalizeMarkdownWhitespace s) = false ∧
    trimStartList (normalizeMarkdownWhitespace s) =
      normalizeMarkdownWhitespace s ∧
    trimEndList (normalizeMarkdownWhitespace s) =
      normalizeMarkdownWhitespace s := by
  unfold normalizeMarkdownWhitespace trimList
  set T := joinNl ((splitNl s).map trimEndList) with hT
  set Xc := collapseNl T 0 with hXc
  have hTn : noTrailWs T = true := by
    apply noTrailWs_joinNl
    intro g hg
    rw [List.mem_map] at hg
    obtain ⟨g0, hg0, rfl⟩ := hg
    constructor
    · intro hmem
      obtain ⟨w, hw, -⟩ := trimEndList_decomp g0
      exact not_nl_mem_splitNl s g0 hg0 (hw ▸ List.mem_append_left _ hmem)
    · exact endOkP_of_trimmed (trimEndList_idem g0)
  have hXn : noTrailWs Xc = true := noTrailWs_collapseNl T 0 hTn
  have hX3 : hasNl3 Xc = false := hasNl3_collapseNl T 0
  refine ⟨?_, ?_, ?_, ?_⟩
  · exact noTrailWs_trimEndList _ (noTrailWs_dropWhile _ _ hXn)
  · exact hasNl3_trimEndList _ (hasNl3_dropWhile _ _ hX3)
  · exact trimStart_fixed_trimEnd _ (trimStartList_idem Xc)
  · exact trimEndList_idem _

/-- C10.  `normalizeMarkdownWhitespace` is idempotent, and its output
has no line with trailing whitespace, no run of three or more
consecutive newlines, and no leading or trailing whitespace (both trims
fix it). -/
theorem C10_normalize_idempotent : ∀ s : List Char,
    normalizeMarkdownWhitespace (normalizeMarkdownWhitespace s) =
      normalizeMarkdownWhitespace s ∧
    (∀ g ∈ splitNl (normalizeMarkdownWhitespace s), trimEndList g = g) ∧
    ¬(['\n', '\n', '\n'] <:+: normalizeMarkdownWhitespace s) ∧
    trimStartList (normalizeMarkdownWhitespace s) =
      normalizeMarkdownWhitespace s ∧
    trimEndList (normalizeMarkdownWhitespace s) =
      normalizeMarkdownWhitespace s := by
  intro s
  obtain ⟨hNn, hN3, hNs, hNe⟩ := normalize_shape s
  set N := normalizeMarkdownWhitespace s with hN
  have hlines : ∀ g ∈ splitNl N, trimEndList g = g := fun g hg =>
    trimmed_of_endOkP (splitNl_endOk N hNn g hg)
  refine ⟨?_, hlines, ?_, hNs, hNe⟩
  · show trimList (collapseNl (joinNl ((splitNl N).map trimEndList)) 0) = N
    rw [map_eq_self_of_mem hlines, joinNl_splitNl]
    have hc : collapseNl N 0 = N := by
      have := collapseNl_eq_self N 0 (by simpa using hN3)
      simpa using this
    rw [hc]
    show trimEndList (trimStartList N) = N
    rw [hNs, hNe]
  · intro hinf
    rw [← hasNl3_iff_nl3_infix N, hN3] at hinf
    exact absurd hinf (by simp)

/-- Witness for `C10_normalize_idempotent`: the line `"a"` of the
normalization of `"a  \n\n\n\nb "` is fixed by `trimEndList`. -/
theorem C10_normalize_idempotent_witness :
    ['a'] ∈ splitNl (normalizeMarkdownWhitespace "a  \n\n\n\nb ".data) ∧
    trimEndList ['a'] = ['a'] :=
  ⟨by decide,
    (C10_normalize_idempotent "a  \n\n\n\nb ".data).2.1 ['a'] (by decide)⟩

/- THEOREMS-MARKER -/
